import Mathlib

/-!
Verification of the retrofit optimization and ranking engine.

The repository ships the surrounding dashboard plans, browser tests and
data tables; the engine itself (objective evaluator, NSGA-II optimizer,
MCDM ranker) lives behind the `/api/inference`, `/api/optimize` and
`/api/mcdm` endpoints and is modelled here from the specification.
Numbers are embedded as rationals.
-/

namespace Retrofit

/-- A continuous retrofit design vector: the four thermal design variables
from `RetrofitPresetService` and `DesignVariableSliders`. -/
structure DVec where
  windows_U_Factor : ℚ
  groundfloor_thermal_resistance : ℚ
  ext_walls_thermal_resistance : ℚ
  roof_thermal_resistance : ℚ
deriving DecidableEq, Repr

/-- Per-variable lower and upper bounds of the design space. -/
structure Bounds where
  lo : DVec
  hi : DVec
deriving DecidableEq, Repr

/-- Clamp a single rational into the closed interval from lo to hi. -/
def clampQ (lo hi x : ℚ) : ℚ := min hi (max lo x)

/-- Modelled from the spec: the Design Space Model's clamp function
(section 4.3), applied componentwise to the four continuous variables. -/
def clamp (b : Bounds) (v : DVec) : DVec :=
  ⟨clampQ b.lo.windows_U_Factor b.hi.windows_U_Factor v.windows_U_Factor,
   clampQ b.lo.groundfloor_thermal_resistance b.hi.groundfloor_thermal_resistance
     v.groundfloor_thermal_resistance,
   clampQ b.lo.ext_walls_thermal_resistance b.hi.ext_walls_thermal_resistance
     v.ext_walls_thermal_resistance,
   clampQ b.lo.roof_thermal_resistance b.hi.roof_thermal_resistance
     v.roof_thermal_resistance⟩

/-- Membership of a vector in the design space, with closed intervals. -/
def InBounds (b : Bounds) (v : DVec) : Prop :=
  (b.lo.windows_U_Factor ≤ v.windows_U_Factor ∧
     v.windows_U_Factor ≤ b.hi.windows_U_Factor) ∧
  (b.lo.groundfloor_thermal_resistance ≤ v.groundfloor_thermal_resistance ∧
     v.groundfloor_thermal_resistance ≤ b.hi.groundfloor_thermal_resistance) ∧
  (b.lo.ext_walls_thermal_resistance ≤ v.ext_walls_thermal_resistance ∧
     v.ext_walls_thermal_resistance ≤ b.hi.ext_walls_thermal_resistance) ∧
  (b.lo.roof_thermal_resistance ≤ v.roof_thermal_resistance ∧
     v.roof_thermal_resistance ≤ b.hi.roof_thermal_resistance)

instance (b : Bounds) (v : DVec) : Decidable (InBounds b v) := by
  unfold InBounds; infer_instance

/-- Modelled from the spec: the Design Space Model's isFeasible check
(section 4.3); closed-interval bound check on every component. -/
def isFeasible (b : Bounds) (v : DVec) : Bool := decide (InBounds b v)

/-- Componentwise well-formedness of the bounds (each min at most its max). -/
def WellFormed (b : Bounds) : Prop :=
  b.lo.windows_U_Factor ≤ b.hi.windows_U_Factor ∧
  b.lo.groundfloor_thermal_resistance ≤ b.hi.groundfloor_thermal_resistance ∧
  b.lo.ext_walls_thermal_resistance ≤ b.hi.ext_walls_thermal_resistance ∧
  b.lo.roof_thermal_resistance ≤ b.hi.roof_thermal_resistance

instance (b : Bounds) : Decidable (WellFormed b) := by
  unfold WellFormed; infer_instance

/-- The slider bounds declared in `DesignVariableSliders.svelte`:
windows 0.8 to 2.9, ground floor 0.41 to 5.6, walls 0.45 to 6.7,
roof 0.48 to 8.7. -/
def designBounds : Bounds :=
  ⟨⟨8/10, 41/100, 45/100, 48/100⟩, ⟨29/10, 56/10, 67/10, 87/10⟩⟩

/-- The baseline preset of `RetrofitPresetService.PRESETS`. -/
def baselinePreset : DVec := ⟨29/10, 41/100, 45/100, 48/100⟩

/-- The basic preset of `RetrofitPresetService.PRESETS`. -/
def basicPreset : DVec := ⟨2, 3/2, 3/2, 2⟩

/-- The standard preset of `RetrofitPresetService.PRESETS`. -/
def standardPreset : DVec := ⟨3/2, 3, 3, 4⟩

/-- The deep preset of `RetrofitPresetService.PRESETS`. -/
def deepPreset : DVec := ⟨9/10, 5, 6, 8⟩

/-- All four named presets of `RetrofitPresetService.PRESETS`. -/
def allPresets : List DVec := [baselinePreset, basicPreset, standardPreset, deepPreset]

/-- An evaluated objective vector: energy, cost and co2 are minimized,
comfort is maximized. -/
structure Objs where
  energy : ℚ
  cost : ℚ
  co2 : ℚ
  comfort : ℚ
deriving DecidableEq, Repr

/-- The four objective identifiers. -/
inductive Obj where
  | energy
  | cost
  | co2
  | comfort
deriving DecidableEq, Repr

/-- Objective value lookup. -/
def Objs.get (c : Objs) : Obj → ℚ
  | .energy => c.energy
  | .cost => c.cost
  | .co2 => c.co2
  | .comfort => c.comfort

/-- Direction of each objective: true when it is minimized. -/
def minimized : Obj → Bool
  | .comfort => false
  | _ => true

/-- The fixed list of all objectives. -/
def allObjs : List Obj := [.energy, .cost, .co2, .comfort]

/-- Oriented weak comparison: a is at least as good as b on objective o. -/
def atLeastAsGood (a b : Objs) (o : Obj) : Bool :=
  if minimized o then decide (a.get o ≤ b.get o) else decide (b.get o ≤ a.get o)

/-- Oriented strict comparison: a is strictly better than b on objective o. -/
def strictlyGood (a b : Objs) (o : Obj) : Bool :=
  if minimized o then decide (a.get o < b.get o) else decide (b.get o < a.get o)

/-- Modelled from the spec: the dominance rule of section 4.2 — a dominates b
iff a is at least as good on every objective and strictly better on at least
one. -/
def dominates (a b : Objs) : Bool :=
  (allObjs.all fun o => atLeastAsGood a b o) &&
  (allObjs.any fun o => strictlyGood a b o)

/-- Modelled from the spec: extraction of the non-dominated front F1
(section 4.2 step 4) — the members of the candidate list dominated
by nobody in the list. -/
def paretoFilter (l : List Objs) : List Objs :=
  l.filter fun s => l.all fun t => !(dominates t s)

lemma paretoFilter_nondominated {l : List Objs} {a b : Objs}
    (ha : a ∈ paretoFilter l) (hb : b ∈ paretoFilter l) :
    dominates a b = false := by
  rw [paretoFilter, List.mem_filter] at ha hb
  have hal : a ∈ l := ha.1
  have hb2 := hb.2
  rw [List.all_eq_true] at hb2
  have := hb2 a hal
  simpa using this

/-- An individual of the genetic population: a continuous design vector plus
the categorical climate time horizon. -/
structure Individual where
  vec : DVec
  horizon : ℕ
deriving DecidableEq, Repr

/-- Modelled from the spec: construction of a population member (sections
4.2 steps 1 and 7) — a raw proposal from initialization or from simulated
binary crossover and polynomial mutation is clipped to bounds, and the
time horizon is held fixed at the run's horizon. -/
def mkInd (b : Bounds) (h0 : ℕ) (raw : DVec) : Individual :=
  ⟨clamp b raw, h0⟩

/-- Modelled from the spec: the population at each generation (section 4.2
steps 1, 7 and 8). Generation 0 clips the initial raw proposals; generation
g+1 applies the variation operators to the parents, clips each offspring to
bounds, and lets the replacement step pick the next population from the
combined parent and offspring pool. The replacement policy and the raw
variation proposals are abstract parameters. -/
def popAt (b : Bounds) (h0 : ℕ) (initRaw : List DVec)
    (vary : List Individual → List DVec)
    (replace : List Individual → List Individual) : ℕ → List Individual
  | 0 => initRaw.map (mkInd b h0)
  | g + 1 =>
      let parents := popAt b h0 initRaw vary replace g
      replace (parents ++ (vary parents).map (mkInd b h0))

/-- The replacement step only selects among parents and offspring, never
invents new individuals: NSGA-II fills the next generation from the combined
pool by front rank and crowding distance. -/
def SelectsFromPool (replace : List Individual → List Individual) : Prop :=
  ∀ l x, x ∈ replace l → x ∈ l

lemma clampQ_mem {lo hi x : ℚ} (h : lo ≤ hi) :
    lo ≤ clampQ lo hi x ∧ clampQ lo hi x ≤ hi := by
  unfold clampQ
  constructor
  · exact le_min h (le_max_left lo x)
  · exact min_le_left hi _

lemma clamp_inBounds {b : Bounds} (hb : WellFormed b) (v : DVec) :
    InBounds b (clamp b v) := by
  obtain ⟨h1, h2, h3, h4⟩ := hb
  exact ⟨clampQ_mem h1, clampQ_mem h2, clampQ_mem h3, clampQ_mem h4⟩

lemma popAt_mem_cases {b : Bounds} {h0 : ℕ} {initRaw : List DVec}
    {vary : List Individual → List DVec}
    {replace : List Individual → List Individual}
    (hsel : SelectsFromPool replace) :
    ∀ g x, x ∈ popAt b h0 initRaw vary replace g →
      (∃ raw, x = mkInd b h0 raw) := by
  intro g
  induction g with
  | zero =>
      intro x hx
      rw [popAt, List.mem_map] at hx
      obtain ⟨raw, _, hr⟩ := hx
      exact ⟨raw, hr.symm⟩
  | succ g ih =>
      intro x hx
      rw [popAt] at hx
      have hx2 := hsel _ _ hx
      rw [List.mem_append] at hx2
      rcases hx2 with hp | ho
      · exact ih x hp
      · rw [List.mem_map] at ho
        obtain ⟨raw, _, hr⟩ := ho
        exact ⟨raw, hr.symm⟩

/-- Claim C7: every design vector produced by the Optimizer — in any
generation, after any crossover or mutation application — has every
continuous component within its declared min and max bound, because
offspring are clipped to bounds after each variation operator. -/
theorem optimizer_population_in_bounds
    {b : Bounds} {h0 : ℕ} {initRaw : List DVec}
    {vary : List Individual → List DVec}
    {replace : List Individual → List Individual}
    (hb : WellFormed b) (hsel : SelectsFromPool replace)
    (g : ℕ) (x : Individual)
    (hx : x ∈ popAt b h0 initRaw vary replace g) :
    InBounds b x.vec := by
  obtain ⟨raw, hr⟩ := popAt_mem_cases hsel g x hx
  subst hr
  exact clamp_inBounds hb raw

/-- Claim C7 witness: a concrete two-generation run with identity
replacement stays within the declared slider bounds. -/
theorem optimizer_population_in_bounds_witness :
    WellFormed designBounds ∧
    SelectsFromPool (fun l => l) ∧
    mkInd designBounds 2020 ⟨1, 1, 1, 1⟩ ∈
      popAt designBounds 2020 [⟨1, 1, 1, 1⟩] (fun _ => [⟨99, 99, 99, 99⟩])
        (fun l => l) 1 ∧
    InBounds designBounds (mkInd designBounds 2020 ⟨1, 1, 1, 1⟩).vec := by
  have hwf : WellFormed designBounds := by
    norm_num [WellFormed, designBounds]
  have h0mem : mkInd designBounds 2020 ⟨1, 1, 1, 1⟩ ∈
      popAt designBounds 2020 [⟨1, 1, 1, 1⟩] (fun _ => [⟨99, 99, 99, 99⟩])
        (fun l => l) 0 :=
    List.mem_map_of_mem _ (List.mem_singleton_self _)
  have h1mem : mkInd designBounds 2020 ⟨1, 1, 1, 1⟩ ∈
      popAt designBounds 2020 [⟨1, 1, 1, 1⟩] (fun _ => [⟨99, 99, 99, 99⟩])
        (fun l => l) 1 :=
    List.mem_append_left _ h0mem
  exact ⟨hwf, fun _ _ h => h, h1mem,
    optimizer_population_in_bounds hwf (fun _ _ h => h) 1 _ h1mem⟩

/-- Claim C9: with the default fixed-per-run horizon configuration, the
categorical time horizon of every individual in every generation equals the
horizon the run started with: initialization, crossover, mutation and
replacement never alter it. -/
theorem optimizer_horizon_fixed_per_run
    {b : Bounds} {h0 : ℕ} {initRaw : List DVec}
    {vary : List Individual → List DVec}
    {replace : List Individual → List Individual}
    (hsel : SelectsFromPool replace)
    (g : ℕ) (x : Individual)
    (hx : x ∈ popAt b h0 initRaw vary replace g) :
    x.horizon = h0 := by
  obtain ⟨raw, hr⟩ := popAt_mem_cases hsel g x hx
  subst hr
  rfl

/-- Claim C9 witness: in a concrete two-generation run started at horizon
2050, a member of generation 1 still carries horizon 2050. -/
theorem optimizer_horizon_fixed_per_run_witness :
    SelectsFromPool (fun l => l) ∧
    mkInd designBounds 2050 ⟨2, 2, 2, 2⟩ ∈
      popAt designBounds 2050 [⟨2, 2, 2, 2⟩] (fun _ => [⟨0, 0, 0, 0⟩])
        (fun l => l) 1 ∧
    (mkInd designBounds 2050 ⟨2, 2, 2, 2⟩).horizon = 2050 := by
  have h1mem : mkInd designBounds 2050 ⟨2, 2, 2, 2⟩ ∈
      popAt designBounds 2050 [⟨2, 2, 2, 2⟩] (fun _ => [⟨0, 0, 0, 0⟩])
        (fun l => l) 1 :=
    List.mem_append_left _ (List.mem_map_of_mem _ (List.mem_singleton_self _))
  exact ⟨fun _ _ h => h, h1mem,
    optimizer_horizon_fixed_per_run (fun _ _ h => h) 1 _ h1mem⟩

/-- Modelled from the spec: the ParetoFront returned by one optimization run
(section 4.2 step 10) — the non-dominated front F1 of the final generation's
evaluated population. -/
def returnedFront (evalF : Individual → Objs)
    (b : Bounds) (h0 : ℕ) (initRaw : List DVec)
    (vary : List Individual → List DVec)
    (replace : List Individual → List Individual) (gens : ℕ) : List Objs :=
  paretoFilter ((popAt b h0 initRaw vary replace gens).map evalF)

/-- Claim C1: in every ParetoFront returned by the Optimizer, no member
dominates another member, with dominance oriented by each objective's
minimize or maximize direction. -/
theorem returned_front_mutually_nondominated
    {evalF : Individual → Objs} {b : Bounds} {h0 : ℕ} {initRaw : List DVec}
    {vary : List Individual → List DVec}
    {replace : List Individual → List Individual} {gens : ℕ}
    {A B : Objs}
    (hA : A ∈ returnedFront evalF b h0 initRaw vary replace gens)
    (hB : B ∈ returnedFront evalF b h0 initRaw vary replace gens) :
    dominates A B = false :=
  paretoFilter_nondominated hA hB

/-- Claim C1 witness: a concrete run whose front contains the evaluation of
the single surviving individual, which does not dominate itself. -/
theorem returned_front_mutually_nondominated_witness :
    (⟨1, 2, 3, 4⟩ : Objs) ∈
      returnedFront (fun _ => ⟨1, 2, 3, 4⟩) designBounds 2020 [⟨1, 1, 1, 1⟩]
        (fun _ => []) (fun l => l) 1 ∧
    dominates ⟨1, 2, 3, 4⟩ ⟨1, 2, 3, 4⟩ = false := by
  have hpop : mkInd designBounds 2020 ⟨1, 1, 1, 1⟩ ∈
      popAt designBounds 2020 [⟨1, 1, 1, 1⟩] (fun _ => []) (fun l => l) 1 :=
    List.mem_append_left _ (List.mem_map_of_mem _ (List.mem_singleton_self _))
  have hmapped : (⟨1, 2, 3, 4⟩ : Objs) ∈
      (popAt designBounds 2020 [⟨1, 1, 1, 1⟩] (fun _ => []) (fun l => l) 1).map
        (fun _ => (⟨1, 2, 3, 4⟩ : Objs)) :=
    List.mem_map_of_mem _ hpop
  have hnd : dominates ⟨1, 2, 3, 4⟩ ⟨1, 2, 3, 4⟩ = false := by
    simp [dominates, allObjs, strictlyGood, Objs.get, minimized]
  have hmem : (⟨1, 2, 3, 4⟩ : Objs) ∈
      returnedFront (fun _ => ⟨1, 2, 3, 4⟩) designBounds 2020 [⟨1, 1, 1, 1⟩]
        (fun _ => []) (fun l => l) 1 := by
    rw [returnedFront, paretoFilter]
    refine List.mem_filter.mpr ⟨hmapped, ?_⟩
    rw [List.all_eq_true]
    intro t ht
    rw [List.mem_map] at ht
    obtain ⟨i, _, hi⟩ := ht
    rw [← hi, hnd]
    rfl
  exact ⟨hmem, returned_front_mutually_nondominated hmem hmem⟩

/-- Errors of the Objective Evaluator. -/
inductive EvalError where
  | invalidInput
  | modelUnavailable
deriving DecidableEq, Repr

/-- Modelled from the spec: the Objective Evaluator's evaluate contract
(section 4.1) — the input vector must satisfy the Design Space bounds;
a violating vector fails with InvalidInput and is never silently clamped;
a feasible vector is passed unmodified to the surrogate predictor. -/
def evaluate (predict : DVec → ℕ → Objs) (b : Bounds) (v : DVec) (h : ℕ) :
    Except EvalError Objs :=
  if isFeasible b v then Except.ok (predict v h) else Except.error EvalError.invalidInput

/-- Claim C8: evaluate fails with InvalidInput on every vector violating the
Design Space bounds, and every successful evaluation is the prediction at
the unmodified input vector — the Evaluator itself never clamps. -/
theorem evaluate_rejects_out_of_bounds
    (predict : DVec → ℕ → Objs) (b : Bounds) (v : DVec) (h : ℕ) :
    (¬ InBounds b v → evaluate predict b v h = Except.error EvalError.invalidInput) ∧
    (∀ o, evaluate predict b v h = Except.ok o → InBounds b v ∧ o = predict v h) := by
  constructor
  · intro hv
    rw [evaluate, isFeasible, if_neg]
    simpa using hv
  · intro o ho
    rw [evaluate] at ho
    by_cases hf : isFeasible b v
    · rw [if_pos hf] at ho
      refine ⟨?_, (Except.ok.injEq _ _).mp ho |>.symm⟩
      rw [isFeasible] at hf
      exact of_decide_eq_true hf
    · rw [if_neg hf] at ho
      exact absurd ho (by simp)

/-- Claim C8 witness: an out-of-bounds vector (windows U factor 5 above its
max 2.9) is rejected with InvalidInput, and the baseline preset evaluates to
the prediction at the unmodified baseline preset. -/
theorem evaluate_rejects_out_of_bounds_witness :
    (¬ InBounds designBounds ⟨5, 1, 1, 1⟩ ∧
      evaluate (fun _ _ => ⟨1, 2, 3, 4⟩) designBounds ⟨5, 1, 1, 1⟩ 2020 =
        Except.error EvalError.invalidInput) ∧
    (evaluate (fun _ _ => ⟨1, 2, 3, 4⟩) designBounds baselinePreset 2020 =
        Except.ok ⟨1, 2, 3, 4⟩ ∧
      InBounds designBounds baselinePreset ∧
        (⟨1, 2, 3, 4⟩ : Objs) = (fun _ _ => (⟨1, 2, 3, 4⟩ : Objs)) baselinePreset 2020) := by
  have hbad : ¬ InBounds designBounds ⟨5, 1, 1, 1⟩ := by
    norm_num [InBounds, designBounds]
  have hgood : InBounds designBounds baselinePreset := by
    norm_num [InBounds, designBounds, baselinePreset]
  have hok : evaluate (fun _ _ => ⟨1, 2, 3, 4⟩) designBounds baselinePreset 2020 =
      Except.ok ⟨1, 2, 3, 4⟩ := by
    rw [evaluate, if_pos]
    rw [isFeasible]
    exact decide_eq_true hgood
  constructor
  · exact ⟨hbad, (evaluate_rejects_out_of_bounds (fun _ _ => ⟨1, 2, 3, 4⟩)
      designBounds ⟨5, 1, 1, 1⟩ 2020).1 hbad⟩
  · exact ⟨hok, (evaluate_rejects_out_of_bounds (fun _ _ => ⟨1, 2, 3, 4⟩)
      designBounds baselinePreset 2020).2 ⟨1, 2, 3, 4⟩ hok⟩

lemma clampQ_eq_self {lo hi x : ℚ} (h1 : lo ≤ x) (h2 : x ≤ hi) :
    clampQ lo hi x = x := by
  unfold clampQ
  rw [max_eq_right h1, min_eq_right h2]

lemma clamp_eq_of_inBounds {b : Bounds} {v : DVec} (h : InBounds b v) :
    clamp b v = v := by
  obtain ⟨⟨h1, h2⟩, ⟨h3, h4⟩, ⟨h5, h6⟩, ⟨h7, h8⟩⟩ := h
  unfold clamp
  rw [clampQ_eq_self h1 h2, clampQ_eq_self h3 h4, clampQ_eq_self h5 h6,
    clampQ_eq_self h7 h8]

lemma inBounds_baseline : InBounds designBounds baselinePreset := by
  norm_num [InBounds, designBounds, baselinePreset]

lemma inBounds_basic : InBounds designBounds basicPreset := by
  norm_num [InBounds, designBounds, basicPreset]

lemma inBounds_standard : InBounds designBounds standardPreset := by
  norm_num [InBounds, designBounds, standardPreset]

lemma inBounds_deep : InBounds designBounds deepPreset := by
  norm_num [InBounds, designBounds, deepPreset]

/-- Claim C10: every named retrofit preset lies within the declared
per-variable bounds: each is feasible under the closed-interval check and
clamp is the identity on it; and the baseline preset sits exactly on the
boundary of every bound (windows at the max, the three resistances at their
min), so isFeasible must treat the bounds as closed intervals. -/
theorem presets_within_bounds :
    (InBounds designBounds baselinePreset ∧
      isFeasible designBounds baselinePreset = true ∧
      clamp designBounds baselinePreset = baselinePreset) ∧
    (InBounds designBounds basicPreset ∧
      isFeasible designBounds basicPreset = true ∧
      clamp designBounds basicPreset = basicPreset) ∧
    (InBounds designBounds standardPreset ∧
      isFeasible designBounds standardPreset = true ∧
      clamp designBounds standardPreset = standardPreset) ∧
    (InBounds designBounds deepPreset ∧
      isFeasible designBounds deepPreset = true ∧
      clamp designBounds deepPreset = deepPreset) ∧
    (baselinePreset.windows_U_Factor = designBounds.hi.windows_U_Factor ∧
      baselinePreset.groundfloor_thermal_resistance =
        designBounds.lo.groundfloor_thermal_resistance ∧
      baselinePreset.ext_walls_thermal_resistance =
        designBounds.lo.ext_walls_thermal_resistance ∧
      baselinePreset.roof_thermal_resistance =
        designBounds.lo.roof_thermal_resistance) := by
  refine ⟨⟨inBounds_baseline, ?_, clamp_eq_of_inBounds inBounds_baseline⟩,
    ⟨inBounds_basic, ?_, clamp_eq_of_inBounds inBounds_basic⟩,
    ⟨inBounds_standard, ?_, clamp_eq_of_inBounds inBounds_standard⟩,
    ⟨inBounds_deep, ?_, clamp_eq_of_inBounds inBounds_deep⟩,
    rfl, rfl, rfl, rfl⟩
  · exact decide_eq_true inBounds_baseline
  · exact decide_eq_true inBounds_basic
  · exact decide_eq_true inBounds_standard
  · exact decide_eq_true inBounds_deep

/-- A weight vector over the four objectives. -/
structure Weights where
  energy : ℚ
  cost : ℚ
  co2 : ℚ
  comfort : ℚ
deriving DecidableEq, Repr

/-- Weight lookup. -/
def Weights.get (w : Weights) : Obj → ℚ
  | .energy => w.energy
  | .cost => w.cost
  | .co2 => w.co2
  | .comfort => w.comfort

/-- The sum of the four weights. -/
def Weights.total (w : Weights) : ℚ :=
  w.energy + w.cost + w.co2 + w.comfort

/-- Divide every weight by s. -/
def Weights.div (w : Weights) (s : ℚ) : Weights :=
  ⟨w.energy / s, w.cost / s, w.co2 / s, w.comfort / s⟩

/-- Multiply every weight by k. -/
def Weights.scale (w : Weights) (k : ℚ) : Weights :=
  ⟨k * w.energy, k * w.cost, k * w.co2, k * w.comfort⟩

/-- Minimum of a list of rationals (0 on the empty list, which the ranker
never consults). -/
def listMin : List ℚ → ℚ
  | [] => 0
  | [x] => x
  | x :: y :: xs => min x (listMin (y :: xs))

/-- Maximum of a list of rationals (0 on the empty list, which the ranker
never consults). -/
def listMax : List ℚ → ℚ
  | [] => 0
  | [x] => x
  | x :: y :: xs => max x (listMax (y :: xs))

/-- The values one objective takes across the candidate set. -/
def vals (cands : List Objs) (o : Obj) : List ℚ :=
  cands.map fun c => c.get o

/-- Modelled from the spec: per-objective rescaling core (section 4.4 step
1) over the value list of one objective — 1 when max equals min, otherwise
(max - x)/(max - min) for a minimized objective and (x - min)/(max - min)
for a maximized one. -/
def nsCore (l : List ℚ) (isMin : Bool) (x : ℚ) : ℚ :=
  if listMax l = listMin l then 1
  else if isMin then (listMax l - x) / (listMax l - listMin l)
  else (x - listMin l) / (listMax l - listMin l)

/-- Modelled from the spec: the MCDM normalized score of value x on
objective o relative to the candidate set (section 4.4 step 1). -/
def normScore (cands : List Objs) (o : Obj) (x : ℚ) : ℚ :=
  nsCore (vals cands o) (minimized o) x

/-- The raw unweighted sum of the four normalized scores of a candidate,
the first tie-break key of section 4.4 step 3. -/
def rawScore (cands : List Objs) (c : Objs) : ℚ :=
  normScore cands Obj.energy c.energy + normScore cands Obj.cost c.cost +
    normScore cands Obj.co2 c.co2 + normScore cands Obj.comfort c.comfort

/-- Modelled from the spec: the weighted score of section 4.4 step 2,
applied with already-normalized weights. -/
def wScore (w : Weights) (cands : List Objs) (c : Objs) : ℚ :=
  w.energy * normScore cands Obj.energy c.energy +
    w.cost * normScore cands Obj.cost c.cost +
    w.co2 * normScore cands Obj.co2 c.co2 +
    w.comfort * normScore cands Obj.comfort c.comfort

/-- One row of the ranking: the weighted score, the raw tie-break score,
the candidate's input position and the candidate itself. -/
structure Entry where
  score : ℚ
  raw : ℚ
  idx : ℕ
  objs : Objs
deriving DecidableEq, Repr

/-- Modelled from the spec: the ranking order of section 4.4 step 3 —
descending weighted score, ties broken by descending raw normalized-score
sum, then by ascending input position. -/
def entryLE (a b : Entry) : Prop :=
  b.score < a.score ∨
    (a.score = b.score ∧
      (b.raw < a.raw ∨ (a.raw = b.raw ∧ a.idx ≤ b.idx)))

instance : DecidableRel entryLE := fun a b => by
  unfold entryLE; infer_instance

instance : IsTotal Entry entryLE where
  total a b := by
    rcases lt_trichotomy a.score b.score with h | h | h
    · exact Or.inr (Or.inl h)
    · rcases lt_trichotomy a.raw b.raw with h2 | h2 | h2
      · exact Or.inr (Or.inr ⟨h.symm, Or.inl h2⟩)
      · rcases Nat.le_total a.idx b.idx with h3 | h3
        · exact Or.inl (Or.inr ⟨h, Or.inr ⟨h2, h3⟩⟩)
        · exact Or.inr (Or.inr ⟨h.symm, Or.inr ⟨h2.symm, h3⟩⟩)
      · exact Or.inl (Or.inr ⟨h, Or.inl h2⟩)
    · exact Or.inl (Or.inl h)

instance : IsTrans Entry entryLE where
  trans a b c hab hbc := by
    rcases hab with h1 | ⟨e1, h1⟩
    · rcases hbc with h2 | ⟨e2, h2⟩
      · exact Or.inl (h2.trans h1)
      · exact Or.inl (e2 ▸ h1)
    · rcases hbc with h2 | ⟨e2, h2⟩
      · exact Or.inl (by rw [e1]; exact h2)
      · refine Or.inr ⟨e1.trans e2, ?_⟩
        rcases h1 with r1 | ⟨f1, r1⟩
        · rcases h2 with r2 | ⟨f2, r2⟩
          · exact Or.inl (r2.trans r1)
          · exact Or.inl (f2 ▸ r1)
        · rcases h2 with r2 | ⟨f2, r2⟩
          · exact Or.inl (by rw [f1]; exact r2)
          · exact Or.inr ⟨f1.trans f2, r1.trans r2⟩

/-- Attach input positions, counting from i. -/
def withIdx (i : ℕ) : List Objs → List (ℕ × Objs)
  | [] => []
  | c :: cs => (i, c) :: withIdx (i + 1) cs

/-- The scored and indexed rows of the candidate list. -/
def indexEntries (cands : List Objs) (w : Weights) : List Entry :=
  (withIdx 0 cands).map fun p =>
    ⟨wScore w cands p.2, rawScore cands p.2, p.1, p.2⟩

/-- First candidate minimizing f, earlier input position winning ties. -/
def argminBy (f : Objs → ℚ) : List Objs → Option Objs
  | [] => none
  | x :: xs => some (xs.foldl (fun acc y => if f y < f acc then y else acc) x)

/-- The output of the MCDM ranker. -/
structure RankResult where
  entries : List Entry
  ranked : List Objs
  best : Option Objs
  cheapest : Option Objs
  greenest : Option Objs
deriving DecidableEq, Repr

/-- Errors of the MCDM ranker. -/
inductive RankError where
  | invalidWeights
deriving DecidableEq, Repr

/-- Modelled from the spec: the core of the MCDM ranker (section 4.4 steps
1 to 4), applied after weight normalization — score every candidate, sort
by descending weighted score with the raw-sum and input-order tie-breaks,
and compute the three distinguished picks. -/
def rankCore (cands : List Objs) (w : Weights) : RankResult :=
  let es := List.insertionSort entryLE (indexEntries cands w)
  ⟨es, es.map (fun e => e.objs), (es.map (fun e => e.objs)).head?,
    argminBy (fun c => c.cost) cands, argminBy (fun c => c.co2) cands⟩

/-- Modelled from the spec: the rank entry point (sections 4.4 and 6) — a
zero-sum weight vector is rejected with InvalidWeights before any ranking;
otherwise the weights are renormalized by dividing by their sum and the
core ranking runs. -/
def rank (cands : List Objs) (w : Weights) : Except RankError RankResult :=
  if w.total = 0 then Except.error RankError.invalidWeights
  else Except.ok (rankCore cands (w.div w.total))

lemma listMin_mem : ∀ (x : ℚ) (xs : List ℚ), listMin (x :: xs) ∈ x :: xs
  | _, [] => by simp [listMin]
  | x, y :: xs => by
      rw [listMin]
      rcases min_cases x (listMin (y :: xs)) with ⟨h, _⟩ | ⟨h, _⟩
      · rw [h]; exact List.mem_cons_self _ _
      · rw [h]; exact List.mem_cons_of_mem _ (listMin_mem y xs)

lemma listMin_le : ∀ (x : ℚ) (xs : List ℚ) (y : ℚ),
    y ∈ x :: xs → listMin (x :: xs) ≤ y
  | x, [], y, h => by
      have hy : y = x := by simpa using h
      simp [listMin, hy]
  | x, z :: xs, y, h => by
      rw [listMin]
      rcases List.mem_cons.mp h with rfl | h2
      · exact min_le_left _ _
      · exact le_trans (min_le_right _ _) (listMin_le z xs y h2)

lemma listMax_mem : ∀ (x : ℚ) (xs : List ℚ), listMax (x :: xs) ∈ x :: xs
  | _, [] => by simp [listMax]
  | x, y :: xs => by
      rw [listMax]
      rcases max_cases x (listMax (y :: xs)) with ⟨h, _⟩ | ⟨h, _⟩
      · rw [h]; exact List.mem_cons_self _ _
      · rw [h]; exact List.mem_cons_of_mem _ (listMax_mem y xs)

lemma listMax_ge : ∀ (x : ℚ) (xs : List ℚ) (y : ℚ),
    y ∈ x :: xs → y ≤ listMax (x :: xs)
  | x, [], y, h => by
      have hy : y = x := by simpa using h
      simp [listMax, hy]
  | x, z :: xs, y, h => by
      rw [listMax]
      rcases List.mem_cons.mp h with rfl | h2
      · exact le_max_left _ _
      · exact le_trans (listMax_ge z xs y h2) (le_max_right _ _)

lemma nsCore_eq_one_min {x : ℚ} : ∀ {l : List ℚ}, x ∈ l →
    (∀ y ∈ l, x ≤ y) → nsCore l true x = 1 := by
  intro l hx hmin
  cases l with
  | nil => cases hx
  | cons a as =>
      by_cases heq : listMax (a :: as) = listMin (a :: as)
      · rw [nsCore, if_pos heq]
      · have hmn : listMin (a :: as) = x :=
          le_antisymm (listMin_le a as x hx) (hmin _ (listMin_mem a as))
        rw [nsCore, if_neg heq, if_pos rfl, hmn, div_self]
        rw [hmn] at heq
        exact sub_ne_zero_of_ne heq

lemma nsCore_eq_one_max {x : ℚ} : ∀ {l : List ℚ}, x ∈ l →
    (∀ y ∈ l, y ≤ x) → nsCore l false x = 1 := by
  intro l hx hmax
  cases l with
  | nil => cases hx
  | cons a as =>
      by_cases heq : listMax (a :: as) = listMin (a :: as)
      · rw [nsCore, if_pos heq]
      · have hmx : listMax (a :: as) = x :=
          le_antisymm (hmax _ (listMax_mem a as)) (listMax_ge a as x hx)
        rw [nsCore, if_neg heq]
        simp only [Bool.false_eq_true, if_false]
        rw [hmx, div_self]
        rw [hmx] at heq
        exact sub_ne_zero_of_ne heq

lemma nsCore_lt_one_min {x : ℚ} : ∀ {l : List ℚ}, x ∈ l →
    listMin l < x → nsCore l true x < 1 := by
  intro l hx hlt
  cases l with
  | nil => cases hx
  | cons a as =>
      have hxmax : x ≤ listMax (a :: as) := listMax_ge a as x hx
      have hne : listMax (a :: as) ≠ listMin (a :: as) := by
        intro h
        exact absurd (lt_of_lt_of_le hlt (hxmax.trans h.le)) (lt_irrefl _)
      rw [nsCore, if_neg hne, if_pos rfl]
      have hden : 0 < listMax (a :: as) - listMin (a :: as) := by
        have := lt_of_lt_of_le hlt hxmax
        linarith
      rw [div_lt_one hden]
      linarith

lemma nsCore_lt_one_max {x : ℚ} : ∀ {l : List ℚ}, x ∈ l →
    x < listMax l → nsCore l false x < 1 := by
  intro l hx hlt
  cases l with
  | nil => cases hx
  | cons a as =>
      have hxmin : listMin (a :: as) ≤ x := listMin_le a as x hx
      have hne : listMax (a :: as) ≠ listMin (a :: as) := by
        intro h
        exact absurd (lt_of_le_of_lt hxmin hlt) (by rw [h]; exact lt_irrefl _)
      rw [nsCore, if_neg hne]
      simp only [Bool.false_eq_true, if_false]
      have hden : 0 < listMax (a :: as) - listMin (a :: as) := by
        have := lt_of_le_of_lt hxmin hlt
        linarith
      rw [div_lt_one hden]
      linarith

lemma mem_vals {cands : List Objs} {c : Objs} (o : Obj) (hc : c ∈ cands) :
    c.get o ∈ vals cands o :=
  List.mem_map_of_mem _ hc

/-- Claim C3: the normalized score of a candidate's value equals
(max - x)/(max - min) for minimized objectives and (x - min)/(max - min)
for maximized ones, where min and max characterize the least and greatest
objective values across the candidate set; and when max equals min every
candidate's normalized score is exactly 1, so normalization never divides
by zero. -/
theorem normalization_formula (cands : List Objs) (o : Obj) (c : Objs)
    (hc : c ∈ cands) :
    (listMin (vals cands o) ∈ vals cands o ∧
      ∀ y ∈ vals cands o, listMin (vals cands o) ≤ y) ∧
    (listMax (vals cands o) ∈ vals cands o ∧
      ∀ y ∈ vals cands o, y ≤ listMax (vals cands o)) ∧
    (listMax (vals cands o) = listMin (vals cands o) →
      normScore cands o (c.get o) = 1) ∧
    (listMax (vals cands o) ≠ listMin (vals cands o) →
      normScore cands o (c.get o) =
        if minimized o then
          (listMax (vals cands o) - c.get o) /
            (listMax (vals cands o) - listMin (vals cands o))
        else
          (c.get o - listMin (vals cands o)) /
            (listMax (vals cands o) - listMin (vals cands o))) := by
  have hmem : c.get o ∈ vals cands o := mem_vals o hc
  obtain ⟨a, as, hl⟩ : ∃ a as, vals cands o = a :: as := by
    cases hv : vals cands o with
    | nil => rw [hv] at hmem; cases hmem
    | cons a as => exact ⟨a, as, rfl⟩
  refine ⟨?_, ?_, ?_, ?_⟩
  · rw [hl]
    exact ⟨listMin_mem a as, fun y hy => listMin_le a as y hy⟩
  · rw [hl]
    exact ⟨listMax_mem a as, fun y hy => listMax_ge a as y hy⟩
  · intro heq
    rw [normScore, nsCore, if_pos heq]
  · intro hne
    rw [normScore, nsCore, if_neg hne]

/-- Claim C3 witness: the formula instantiated on a concrete two-candidate
set for the minimized energy objective. -/
theorem normalization_formula_witness :
    (⟨1, 2, 3, 4⟩ : Objs) ∈ [(⟨1, 2, 3, 4⟩ : Objs), ⟨2, 3, 4, 5⟩] ∧
    ((listMin (vals [(⟨1, 2, 3, 4⟩ : Objs), ⟨2, 3, 4, 5⟩] Obj.energy) ∈
        vals [(⟨1, 2, 3, 4⟩ : Objs), ⟨2, 3, 4, 5⟩] Obj.energy ∧
      ∀ y ∈ vals [(⟨1, 2, 3, 4⟩ : Objs), ⟨2, 3, 4, 5⟩] Obj.energy,
        listMin (vals [(⟨1, 2, 3, 4⟩ : Objs), ⟨2, 3, 4, 5⟩] Obj.energy) ≤ y) ∧
    (listMax (vals [(⟨1, 2, 3, 4⟩ : Objs), ⟨2, 3, 4, 5⟩] Obj.energy) ∈
        vals [(⟨1, 2, 3, 4⟩ : Objs), ⟨2, 3, 4, 5⟩] Obj.energy ∧
      ∀ y ∈ vals [(⟨1, 2, 3, 4⟩ : Objs), ⟨2, 3, 4, 5⟩] Obj.energy,
        y ≤ listMax (vals [(⟨1, 2, 3, 4⟩ : Objs), ⟨2, 3, 4, 5⟩] Obj.energy)) ∧
    (listMax (vals [(⟨1, 2, 3, 4⟩ : Objs), ⟨2, 3, 4, 5⟩] Obj.energy) =
        listMin (vals [(⟨1, 2, 3, 4⟩ : Objs), ⟨2, 3, 4, 5⟩] Obj.energy) →
      normScore [(⟨1, 2, 3, 4⟩ : Objs), ⟨2, 3, 4, 5⟩] Obj.energy
        ((⟨1, 2, 3, 4⟩ : Objs).get Obj.energy) = 1) ∧
    (listMax (vals [(⟨1, 2, 3, 4⟩ : Objs), ⟨2, 3, 4, 5⟩] Obj.energy) ≠
        listMin (vals [(⟨1, 2, 3, 4⟩ : Objs), ⟨2, 3, 4, 5⟩] Obj.energy) →
      normScore [(⟨1, 2, 3, 4⟩ : Objs), ⟨2, 3, 4, 5⟩] Obj.energy
        ((⟨1, 2, 3, 4⟩ : Objs).get Obj.energy) =
        if minimized Obj.energy then
          (listMax (vals [(⟨1, 2, 3, 4⟩ : Objs), ⟨2, 3, 4, 5⟩] Obj.energy) -
              (⟨1, 2, 3, 4⟩ : Objs).get Obj.energy) /
            (listMax (vals [(⟨1, 2, 3, 4⟩ : Objs), ⟨2, 3, 4, 5⟩] Obj.energy) -
              listMin (vals [(⟨1, 2, 3, 4⟩ : Objs), ⟨2, 3, 4, 5⟩] Obj.energy))
        else
          ((⟨1, 2, 3, 4⟩ : Objs).get Obj.energy -
              listMin (vals [(⟨1, 2, 3, 4⟩ : Objs), ⟨2, 3, 4, 5⟩] Obj.energy)) /
            (listMax (vals [(⟨1, 2, 3, 4⟩ : Objs), ⟨2, 3, 4, 5⟩] Obj.energy) -
              listMin (vals [(⟨1, 2, 3, 4⟩ : Objs), ⟨2, 3, 4, 5⟩] Obj.energy)))) := by
  have hmem : (⟨1, 2, 3, 4⟩ : Objs) ∈ [(⟨1, 2, 3, 4⟩ : Objs), ⟨2, 3, 4, 5⟩] :=
    List.mem_cons_self _ _
  exact ⟨hmem,
    normalization_formula [(⟨1, 2, 3, 4⟩ : Objs), ⟨2, 3, 4, 5⟩]
      Obj.energy ⟨1, 2, 3, 4⟩ hmem⟩

lemma total_div_self {w : Weights} (h : w.total ≠ 0) :
    (w.div w.total).total = 1 := by
  simp only [Weights.div, Weights.total] at h ⊢
  rw [div_add_div_same, div_add_div_same, div_add_div_same, div_self h]

/-- Claim C4: a weight vector with non-negative entries and positive sum
other than 1 is used after dividing every entry by the sum (the used
vector sums to 1), while a zero-sum — in particular all-zero — weight
vector is rejected with InvalidWeights before any ranking. -/
theorem weights_renormalized_and_zero_rejected (cands : List Objs) (w : Weights) :
    ((0 ≤ w.energy ∧ 0 ≤ w.cost ∧ 0 ≤ w.co2 ∧ 0 ≤ w.comfort) →
      0 < w.total → w.total ≠ 1 →
        rank cands w = Except.ok (rankCore cands (w.div w.total)) ∧
          (w.div w.total).total = 1) ∧
    rank cands ⟨0, 0, 0, 0⟩ = Except.error RankError.invalidWeights := by
  constructor
  · intro _ hpos _
    have hne : w.total ≠ 0 := ne_of_gt hpos
    exact ⟨by rw [rank, if_neg hne], total_div_self hne⟩
  · rw [rank, if_pos]
    norm_num [Weights.total]

/-- Claim C4 witness: the vector (1,1,1,1) of sum 4 is renormalized to sum
1 and ranked, and the all-zero vector is rejected. -/
theorem weights_renormalized_and_zero_rejected_witness :
    ((0 : ℚ) ≤ 1 ∧ (0 : ℚ) ≤ 1 ∧ (0 : ℚ) ≤ 1 ∧ (0 : ℚ) ≤ 1) ∧
    0 < (Weights.mk 1 1 1 1).total ∧ (Weights.mk 1 1 1 1).total ≠ 1 ∧
    (rank [(⟨1, 2, 3, 4⟩ : Objs)] ⟨1, 1, 1, 1⟩ =
        Except.ok (rankCore [(⟨1, 2, 3, 4⟩ : Objs)]
          ((Weights.mk 1 1 1 1).div (Weights.mk 1 1 1 1).total)) ∧
      ((Weights.mk 1 1 1 1).div (Weights.mk 1 1 1 1).total).total = 1) ∧
    rank [(⟨1, 2, 3, 4⟩ : Objs)] ⟨0, 0, 0, 0⟩ =
      Except.error RankError.invalidWeights := by
  have h1 : (0 : ℚ) ≤ 1 ∧ (0 : ℚ) ≤ 1 ∧ (0 : ℚ) ≤ 1 ∧ (0 : ℚ) ≤ 1 := by
    norm_num
  have h2 : 0 < (Weights.mk 1 1 1 1).total := by norm_num [Weights.total]
  have h3 : (Weights.mk 1 1 1 1).total ≠ 1 := by norm_num [Weights.total]
  exact ⟨h1, h2, h3,
    (weights_renormalized_and_zero_rejected [(⟨1, 2, 3, 4⟩ : Objs)]
      ⟨1, 1, 1, 1⟩).1 h1 h2 h3,
    (weights_renormalized_and_zero_rejected [(⟨1, 2, 3, 4⟩ : Objs)]
      ⟨1, 1, 1, 1⟩).2⟩

/-- Claim C5: ranking is invariant under positive scaling of the weight
vector — scaling every weight by the same positive factor yields the
identical ranking result, including the distinguished picks; in particular
the vector (0.5,0.5,0.5,0.5) of sum 2 ranks identically to
(0.25,0.25,0.25,0.25). -/
theorem rank_scale_invariant (cands : List Objs) (w : Weights) (k : ℚ)
    (hk : 0 < k) :
    rank cands (w.scale k) = rank cands w := by
  have ht : (w.scale k).total = k * w.total := by
    simp only [Weights.scale, Weights.total]
    ring
  by_cases h : w.total = 0
  · have hst : (w.scale k).total = 0 := by rw [ht, h, mul_zero]
    rw [rank, rank, if_pos hst, if_pos h]
  · have hst : (w.scale k).total ≠ 0 := by
      rw [ht]
      exact mul_ne_zero (ne_of_gt hk) h
    have hdiv : (w.scale k).div ((w.scale k).total) = w.div w.total := by
      rw [ht]
      simp only [Weights.scale, Weights.div]
      rw [mul_div_mul_left _ _ (ne_of_gt hk), mul_div_mul_left _ _ (ne_of_gt hk),
        mul_div_mul_left _ _ (ne_of_gt hk), mul_div_mul_left _ _ (ne_of_gt hk)]
    rw [rank, rank, if_neg hst, if_neg h, hdiv]

/-- Claim C5 witness: the sum-2 vector (0.5,0.5,0.5,0.5), which is the
scaling of (0.25,0.25,0.25,0.25) by 2, ranks a concrete two-candidate set
identically to the pre-divided vector. -/
theorem rank_scale_invariant_witness :
    (0 : ℚ) < 2 ∧
    Weights.scale ⟨1/4, 1/4, 1/4, 1/4⟩ 2 = (⟨1/2, 1/2, 1/2, 1/2⟩ : Weights) ∧
    rank [(⟨1, 2, 3, 4⟩ : Objs), ⟨2, 3, 4, 5⟩]
        (Weights.scale ⟨1/4, 1/4, 1/4, 1/4⟩ 2) =
      rank [(⟨1, 2, 3, 4⟩ : Objs), ⟨2, 3, 4, 5⟩] ⟨1/4, 1/4, 1/4, 1/4⟩ := by
  refine ⟨by norm_num, ?_, ?_⟩
  · simp only [Weights.scale]
    norm_num
  · exact rank_scale_invariant [(⟨1, 2, 3, 4⟩ : Objs), ⟨2, 3, 4, 5⟩]
      ⟨1/4, 1/4, 1/4, 1/4⟩ 2 (by norm_num)

lemma withIdx_map_snd : ∀ (i : ℕ) (l : List Objs),
    (withIdx i l).map Prod.snd = l
  | _, [] => rfl
  | i, c :: cs => by
      rw [withIdx, List.map_cons, withIdx_map_snd]

lemma indexEntries_map_objs (cands : List Objs) (w : Weights) :
    (indexEntries cands w).map (fun e => e.objs) = cands := by
  rw [indexEntries, List.map_map]
  exact withIdx_map_snd 0 cands

/-- Claim C6: rank is a deterministic pure function of candidates and
weights — re-running it yields the identical result, and every successful
ranking is a permutation of the candidate set sorted by descending weighted
score with ties broken by the raw unweighted sum of normalized scores and
then by input order, the Best Overall pick being the head of that order. -/
theorem rank_deterministic (cands : List Objs) (w : Weights) :
    rank cands w = rank cands w ∧
    ∀ r, rank cands w = Except.ok r →
      List.Perm r.ranked cands ∧
      List.Sorted entryLE r.entries ∧
      r.ranked = r.entries.map (fun e => e.objs) ∧
      r.best = r.ranked.head? := by
  refine ⟨rfl, ?_⟩
  intro r hr
  by_cases h : w.total = 0
  · rw [rank, if_pos h] at hr
    cases hr
  · rw [rank, if_neg h] at hr
    have hr2 : r = rankCore cands (w.div w.total) := by
      cases hr
      rfl
    subst hr2
    refine ⟨?_, ?_, rfl, rfl⟩
    · have hperm : List.Perm
          (List.insertionSort entryLE (indexEntries cands (w.div w.total)))
          (indexEntries cands (w.div w.total)) :=
        List.perm_insertionSort entryLE _
      have := hperm.map fun e => e.objs
      rw [indexEntries_map_objs] at this
      exact this
    · exact List.sorted_insertionSort entryLE _

/-- Claim C6 witness: a concrete successful ranking of a two-candidate set
is a sorted permutation of its input with the Best Overall at its head. -/
theorem rank_deterministic_witness :
    rank [(⟨1, 2, 3, 4⟩ : Objs), ⟨2, 3, 4, 5⟩] ⟨1, 0, 0, 0⟩ =
      rank [(⟨1, 2, 3, 4⟩ : Objs), ⟨2, 3, 4, 5⟩] ⟨1, 0, 0, 0⟩ ∧
    (List.Perm (rankCore [(⟨1, 2, 3, 4⟩ : Objs), ⟨2, 3, 4, 5⟩]
        ((Weights.mk 1 0 0 0).div (Weights.mk 1 0 0 0).total)).ranked
        [(⟨1, 2, 3, 4⟩ : Objs), ⟨2, 3, 4, 5⟩] ∧
      List.Sorted entryLE (rankCore [(⟨1, 2, 3, 4⟩ : Objs), ⟨2, 3, 4, 5⟩]
        ((Weights.mk 1 0 0 0).div (Weights.mk 1 0 0 0).total)).entries ∧
      (rankCore [(⟨1, 2, 3, 4⟩ : Objs), ⟨2, 3, 4, 5⟩]
        ((Weights.mk 1 0 0 0).div (Weights.mk 1 0 0 0).total)).ranked =
        (rankCore [(⟨1, 2, 3, 4⟩ : Objs), ⟨2, 3, 4, 5⟩]
          ((Weights.mk 1 0 0 0).div (Weights.mk 1 0 0 0).total)).entries.map
          (fun e => e.objs) ∧
      (rankCore [(⟨1, 2, 3, 4⟩ : Objs), ⟨2, 3, 4, 5⟩]
        ((Weights.mk 1 0 0 0).div (Weights.mk 1 0 0 0).total)).best =
        (rankCore [(⟨1, 2, 3, 4⟩ : Objs), ⟨2, 3, 4, 5⟩]
          ((Weights.mk 1 0 0 0).div (Weights.mk 1 0 0 0).total)).ranked.head?) := by
  have hok : rank [(⟨1, 2, 3, 4⟩ : Objs), ⟨2, 3, 4, 5⟩] ⟨1, 0, 0, 0⟩ =
      Except.ok (rankCore [(⟨1, 2, 3, 4⟩ : Objs), ⟨2, 3, 4, 5⟩]
        ((Weights.mk 1 0 0 0).div (Weights.mk 1 0 0 0).total)) := by
    rw [rank, if_neg]
    norm_num [Weights.total]
  exact ⟨(rank_deterministic [(⟨1, 2, 3, 4⟩ : Objs), ⟨2, 3, 4, 5⟩] ⟨1, 0, 0, 0⟩).1,
    (rank_deterministic [(⟨1, 2, 3, 4⟩ : Objs), ⟨2, 3, 4, 5⟩] ⟨1, 0, 0, 0⟩).2 _ hok⟩

/-- S is strictly better than T on every objective, oriented by each
objective's direction: lower energy, cost and co2, higher comfort. -/
def StrictlyBest (S T : Objs) : Prop :=
  S.energy < T.energy ∧ S.cost < T.cost ∧ S.co2 < T.co2 ∧ T.comfort < S.comfort

lemma listMin_le_of_mem {l : List ℚ} {y : ℚ} (h : y ∈ l) : listMin l ≤ y := by
  cases l with
  | nil => cases h
  | cons a as => exact listMin_le a as y h

lemma le_listMax_of_mem {l : List ℚ} {y : ℚ} (h : y ∈ l) : y ≤ listMax l := by
  cases l with
  | nil => cases h
  | cons a as => exact listMax_ge a as y h

lemma normScore_dominant_eq_one {cands : List Objs} {S : Objs}
    (hS : S ∈ cands) (hdom : ∀ T ∈ cands, T ≠ S → StrictlyBest S T) :
    normScore cands Obj.energy S.energy = 1 ∧
    normScore cands Obj.cost S.cost = 1 ∧
    normScore cands Obj.co2 S.co2 = 1 ∧
    normScore cands Obj.comfort S.comfort = 1 := by
  refine ⟨?_, ?_, ?_, ?_⟩
  · apply nsCore_eq_one_min (mem_vals Obj.energy hS)
    intro y hy
    obtain ⟨T, hT, rfl⟩ := List.mem_map.mp hy
    by_cases hTS : T = S
    · subst hTS; exact le_refl _
    · exact ((hdom T hT hTS).1).le
  · apply nsCore_eq_one_min (mem_vals Obj.cost hS)
    intro y hy
    obtain ⟨T, hT, rfl⟩ := List.mem_map.mp hy
    by_cases hTS : T = S
    · subst hTS; exact le_refl _
    · exact ((hdom T hT hTS).2.1).le
  · apply nsCore_eq_one_min (mem_vals Obj.co2 hS)
    intro y hy
    obtain ⟨T, hT, rfl⟩ := List.mem_map.mp hy
    by_cases hTS : T = S
    · subst hTS; exact le_refl _
    · exact ((hdom T hT hTS).2.2.1).le
  · apply nsCore_eq_one_max (mem_vals Obj.comfort hS)
    intro y hy
    obtain ⟨T, hT, rfl⟩ := List.mem_map.mp hy
    by_cases hTS : T = S
    · subst hTS; exact le_refl _
    · exact ((hdom T hT hTS).2.2.2).le

lemma normScore_other_lt_one {cands : List Objs} {S T : Objs}
    (hS : S ∈ cands) (hT : T ∈ cands) (hsb : StrictlyBest S T) :
    normScore cands Obj.energy T.energy < 1 ∧
    normScore cands Obj.cost T.cost < 1 ∧
    normScore cands Obj.co2 T.co2 < 1 ∧
    normScore cands Obj.comfort T.comfort < 1 := by
  refine ⟨?_, ?_, ?_, ?_⟩
  · apply nsCore_lt_one_min (mem_vals Obj.energy hT)
    exact lt_of_le_of_lt (listMin_le_of_mem (mem_vals Obj.energy hS)) hsb.1
  · apply nsCore_lt_one_min (mem_vals Obj.cost hT)
    exact lt_of_le_of_lt (listMin_le_of_mem (mem_vals Obj.cost hS)) hsb.2.1
  · apply nsCore_lt_one_min (mem_vals Obj.co2 hT)
    exact lt_of_le_of_lt (listMin_le_of_mem (mem_vals Obj.co2 hS)) hsb.2.2.1
  · apply nsCore_lt_one_max (mem_vals Obj.comfort hT)
    exact lt_of_lt_of_le hsb.2.2.2 (le_listMax_of_mem (mem_vals Obj.comfort hS))

lemma wScore_lt_total {w : Weights} {cands : List Objs} {T : Objs}
    (hw : 0 ≤ w.energy ∧ 0 ≤ w.cost ∧ 0 ≤ w.co2 ∧ 0 ≤ w.comfort)
    (hpos : 0 < w.total)
    (hn : normScore cands Obj.energy T.energy < 1 ∧
      normScore cands Obj.cost T.cost < 1 ∧
      normScore cands Obj.co2 T.co2 < 1 ∧
      normScore cands Obj.comfort T.comfort < 1) :
    wScore w cands T < w.total := by
  have h1 : w.energy * normScore cands Obj.energy T.energy ≤ w.energy :=
    mul_le_of_le_one_right hw.1 hn.1.le
  have h2 : w.cost * normScore cands Obj.cost T.cost ≤ w.cost :=
    mul_le_of_le_one_right hw.2.1 hn.2.1.le
  have h3 : w.co2 * normScore cands Obj.co2 T.co2 ≤ w.co2 :=
    mul_le_of_le_one_right hw.2.2.1 hn.2.2.1.le
  have h4 : w.comfort * normScore cands Obj.comfort T.comfort ≤ w.comfort :=
    mul_le_of_le_one_right hw.2.2.2 hn.2.2.2.le
  have hone : 0 < w.energy ∨ 0 < w.cost ∨ 0 < w.co2 ∨ 0 < w.comfort := by
    by_contra hcon
    push_neg at hcon
    obtain ⟨a, b, c, d⟩ := hcon
    rw [Weights.total] at hpos
    linarith
  rw [wScore, Weights.total]
  rcases hone with h | h | h | h
  · have := mul_lt_of_lt_one_right h hn.1
    linarith
  · have := mul_lt_of_lt_one_right h hn.2.1
    linarith
  · have := mul_lt_of_lt_one_right h hn.2.2.1
    linarith
  · have := mul_lt_of_lt_one_right h hn.2.2.2
    linarith

lemma mem_withIdx_of_mem {c : Objs} : ∀ (n : ℕ) {l : List Objs}, c ∈ l →
    ∃ i, (i, c) ∈ withIdx n l := by
  intro n l
  induction l generalizing n with
  | nil => intro h; cases h
  | cons a as ih =>
      intro h
      rcases List.mem_cons.mp h with rfl | h2
      · exact ⟨n, by rw [withIdx]; exact List.mem_cons_self _ _⟩
      · obtain ⟨i, hi⟩ := ih (n + 1) h2
        exact ⟨i, by rw [withIdx]; exact List.mem_cons_of_mem _ hi⟩

lemma mem_of_mem_withIdx : ∀ (n : ℕ) (l : List Objs) (p : ℕ × Objs),
    p ∈ withIdx n l → p.2 ∈ l
  | _, [], _, h => by cases h
  | n, a :: as, p, h => by
      rw [withIdx] at h
      rcases List.mem_cons.mp h with rfl | h2
      · exact List.mem_cons_self _ _
      · exact List.mem_cons_of_mem _ (mem_of_mem_withIdx (n + 1) as p h2)

lemma withIdx_length : ∀ (n : ℕ) (l : List Objs),
    (withIdx n l).length = l.length
  | _, [] => rfl
  | n, _ :: cs => by
      rw [withIdx, List.length_cons, List.length_cons, withIdx_length]

/-- Claim C2: if a candidate set contains a solution S strictly better than
every other candidate on every objective (per each objective's direction),
then for every weight vector with non-negative entries and positive sum,
rank succeeds, places S first in the ranked order and returns S as the Best
Overall pick. -/
theorem dominant_candidate_ranked_first
    (cands : List Objs) (w : Weights) (S : Objs)
    (hS : S ∈ cands)
    (hdom : ∀ T ∈ cands, T ≠ S → StrictlyBest S T)
    (hw : 0 ≤ w.energy ∧ 0 ≤ w.cost ∧ 0 ≤ w.co2 ∧ 0 ≤ w.comfort)
    (hpos : 0 < w.total) :
    rank cands w = Except.ok (rankCore cands (w.div w.total)) ∧
      (rankCore cands (w.div w.total)).best = some S ∧
      (rankCore cands (w.div w.total)).ranked.head? = some S := by
  have hne : w.total ≠ 0 := ne_of_gt hpos
  have hN : 0 ≤ (w.div w.total).energy ∧ 0 ≤ (w.div w.total).cost ∧
      0 ≤ (w.div w.total).co2 ∧ 0 ≤ (w.div w.total).comfort :=
    ⟨div_nonneg hw.1 hpos.le, div_nonneg hw.2.1 hpos.le,
      div_nonneg hw.2.2.1 hpos.le, div_nonneg hw.2.2.2 hpos.le⟩
  have ht1 : (w.div w.total).total = 1 := total_div_self hne
  have hpos' : 0 < (w.div w.total).total := by rw [ht1]; norm_num
  have hSns := normScore_dominant_eq_one hS hdom
  have hSsc : wScore (w.div w.total) cands S = 1 := by
    rw [wScore, hSns.1, hSns.2.1, hSns.2.2.1, hSns.2.2.2]
    simp only [mul_one]
    exact ht1
  have hlen : (List.insertionSort entryLE
      (indexEntries cands (w.div w.total))).length = cands.length := by
    rw [List.length_insertionSort, indexEntries, List.length_map, withIdx_length]
  have hpos0 : 0 < cands.length := List.length_pos.mpr (List.ne_nil_of_mem hS)
  obtain ⟨h, tl, hes⟩ : ∃ h tl,
      List.insertionSort entryLE (indexEntries cands (w.div w.total)) = h :: tl := by
    cases hcase : List.insertionSort entryLE (indexEntries cands (w.div w.total)) with
    | nil =>
        rw [hcase] at hlen
        rw [List.length_nil] at hlen
        omega
    | cons a b => exact ⟨a, b, rfl⟩
  have hmemh : h ∈ indexEntries cands (w.div w.total) := by
    refine (List.perm_insertionSort entryLE _).subset ?_
    rw [hes]
    exact List.mem_cons_self h tl
  obtain ⟨p, hp, rfl⟩ := List.mem_map.mp hmemh
  have hpc : p.2 ∈ cands := mem_of_mem_withIdx 0 cands p hp
  have hhS : p.2 = S := by
    by_contra hc'
    have hsb : StrictlyBest S p.2 := hdom p.2 hpc hc'
    have hTT := normScore_other_lt_one hS hpc hsb
    have hlt : wScore (w.div w.total) cands p.2 < 1 := by
      have := wScore_lt_total hN hpos' hTT
      rw [ht1] at this
      exact this
    obtain ⟨i, hiS⟩ := mem_withIdx_of_mem 0 hS
    have heSmem : (⟨wScore (w.div w.total) cands S, rawScore cands S, i, S⟩ : Entry)
        ∈ indexEntries cands (w.div w.total) := List.mem_map_of_mem _ hiS
    have heSes : (⟨wScore (w.div w.total) cands S, rawScore cands S, i, S⟩ : Entry)
        ∈ (⟨wScore (w.div w.total) cands p.2, rawScore cands p.2, p.1, p.2⟩ : Entry)
          :: tl := by
      rw [← hes]
      exact (List.perm_insertionSort entryLE _).symm.subset heSmem
    rcases List.mem_cons.mp heSes with heq | htl
    · have := congrArg Entry.objs heq
      exact hc' ((show S = p.2 from this).symm)
    · have hsort := List.sorted_insertionSort entryLE
        (indexEntries cands (w.div w.total))
      rw [hes] at hsort
      have hrel := (List.sorted_cons.mp hsort).1 _ htl
      rcases hrel with hlt2 | ⟨heq2, _⟩
      · have hlt2' : wScore (w.div w.total) cands S <
            wScore (w.div w.total) cands p.2 := hlt2
        linarith
      · have heq2' : wScore (w.div w.total) cands p.2 =
            wScore (w.div w.total) cands S := heq2
        linarith
  refine ⟨by rw [rank, if_neg hne], ?_, ?_⟩
  · show ((List.insertionSort entryLE (indexEntries cands (w.div w.total))).map
      (fun e => e.objs)).head? = some S
    rw [hes, List.map_cons, List.head?_cons]
    exact congrArg some hhS
  · show ((List.insertionSort entryLE (indexEntries cands (w.div w.total))).map
      (fun e => e.objs)).head? = some S
    rw [hes, List.map_cons, List.head?_cons]
    exact congrArg some hhS

/-- Claim C2 witness: on a concrete two-candidate set whose first member is
strictly better everywhere, ranking with the all-ones weight vector places
that member first and picks it as Best Overall. -/
theorem dominant_candidate_ranked_first_witness :
    (⟨1, 2, 3, 4⟩ : Objs) ∈ [(⟨1, 2, 3, 4⟩ : Objs), ⟨2, 3, 4, 3⟩] ∧
    (rank [(⟨1, 2, 3, 4⟩ : Objs), ⟨2, 3, 4, 3⟩] ⟨1, 1, 1, 1⟩ =
        Except.ok (rankCore [(⟨1, 2, 3, 4⟩ : Objs), ⟨2, 3, 4, 3⟩]
          ((Weights.mk 1 1 1 1).div (Weights.mk 1 1 1 1).total)) ∧
      (rankCore [(⟨1, 2, 3, 4⟩ : Objs), ⟨2, 3, 4, 3⟩]
          ((Weights.mk 1 1 1 1).div (Weights.mk 1 1 1 1).total)).best =
        some ⟨1, 2, 3, 4⟩ ∧
      (rankCore [(⟨1, 2, 3, 4⟩ : Objs), ⟨2, 3, 4, 3⟩]
          ((Weights.mk 1 1 1 1).div (Weights.mk 1 1 1 1).total)).ranked.head? =
        some ⟨1, 2, 3, 4⟩) := by
  have hS : (⟨1, 2, 3, 4⟩ : Objs) ∈ [(⟨1, 2, 3, 4⟩ : Objs), ⟨2, 3, 4, 3⟩] :=
    List.mem_cons_self _ _
  have hdom : ∀ T ∈ [(⟨1, 2, 3, 4⟩ : Objs), ⟨2, 3, 4, 3⟩],
      T ≠ (⟨1, 2, 3, 4⟩ : Objs) → StrictlyBest ⟨1, 2, 3, 4⟩ T := by
    intro T hT hne
    rcases List.mem_cons.mp hT with rfl | hT2
    · exact absurd rfl hne
    · have : T = (⟨2, 3, 4, 3⟩ : Objs) := by simpa using hT2
      subst this
      refine ⟨by norm_num, by norm_num, by norm_num, by norm_num⟩
  exact ⟨hS, dominant_candidate_ranked_first
    [(⟨1, 2, 3, 4⟩ : Objs), ⟨2, 3, 4, 3⟩] ⟨1, 1, 1, 1⟩ ⟨1, 2, 3, 4⟩ hS hdom
    (by norm_num) (by norm_num [Weights.total])⟩

end Retrofit
